import Mathlib

/-!
Shallow embedding of the kudu tablet compaction/flush engine
(src/tablet/compaction.h) and of the wire-protocol conversions exercised by
src/common/wire_protocol-test.cc.  The repository ships only the interface
header and the tests; every operation below whose body is absent from the
sources is modelled from the specification, as indicated in its doc comment.
-/

namespace Kudu

/-- Column data types appearing in the sources (STRING, UINT32). -/
inductive DataType
  | string
  | uint32
deriving DecidableEq, Repr

/-- One column of a schema: name, type and nullability. -/
structure ColumnSchema where
  name : String
  type : DataType
  nullable : Bool
deriving DecidableEq, Repr

/-- A schema: ordered columns, the first `numKeyCols` forming the primary key. -/
structure Schema where
  cols : List ColumnSchema
  numKeyCols : Nat
deriving DecidableEq, Repr

/-- Modelled from the spec: structural schema compatibility used by `Merge`
(SchemaMismatch check) — same column count, types and nullability. -/
def Schema.structMatches (a b : Schema) : Bool :=
  a.cols.map (fun c => (c.type, c.nullable)) == b.cols.map (fun c => (c.type, c.nullable))

/-- An MVCC snapshot: an immutable visibility predicate on transaction ids
(capability `is_committed(transaction_id) -> bool` of the spec). -/
structure MvccSnapshot where
  isCommitted : Nat → Bool

/-- The change carried by one mutation: an in-place column update or a delete. -/
inductive MutationChange
  | update (col : Nat) (val : Nat)
  | delete
deriving DecidableEq, Repr

/-- One mutation: the id of the transaction that produced it, plus its change.
Chains are lists in commit order (oldest first). -/
structure Mutation where
  txid : Nat
  change : MutationChange
deriving DecidableEq, Repr

/-- A base row: its primary key and its column values. -/
structure RowData where
  key : Nat
  cols : List Nat
deriving DecidableEq, Repr

/-- One row yielded by CompactionInput::PrepareBlock: a base row plus the head
of its (possibly empty) mutation chain. -/
structure CompactionInputRow where
  row : RowData
  mutationHead : List Mutation
deriving DecidableEq, Repr

/-- A row stored in an on-disk row set: the transaction that inserted it,
its data, and its mutation chain. -/
structure DiskRow where
  insertTxid : Nat
  row : RowData
  muts : List Mutation
deriving DecidableEq, Repr

/-- An immutable on-disk row set. -/
structure DiskRowSet where
  rows : List DiskRow
deriving DecidableEq, Repr

/-- Modelled from the spec: `CompactionInput::Create(DiskRowSet, snap)`, whose
body is absent from the sources.  Yields base rows whose insertion transaction
is visible under the snapshot, each paired with its full, unfiltered mutation
chain (the chain is deliberately not pre-filtered by the snapshot). -/
def createFromDiskRowSet (rs : DiskRowSet) (snap : MvccSnapshot) : List CompactionInputRow :=
  (rs.rows.filter (fun r => snap.isCommitted r.insertTxid)).map
    (fun r => ⟨r.row, r.muts⟩)

/-- Applying one mutation change to a (possibly already deleted) row:
a delete drops the row; an update rewrites one column value. -/
def applyChange (r : Option RowData) (c : MutationChange) : Option RowData :=
  match r, c with
  | none, _ => none
  | some _, MutationChange.delete => none
  | some rd, MutationChange.update col v => some { rd with cols := rd.cols.set col v }

/-- Modelled from the spec: walking a row's mutation chain during Flush,
applying only the mutations committed under the snapshot. -/
def applyVisible (snap : MvccSnapshot) (r : RowData) (chain : List Mutation) : Option RowData :=
  chain.foldl (fun acc m => if snap.isCommitted m.txid then applyChange acc m.change else acc)
    (some r)

/-- The fate of a single compaction input row under Flush: `none` when a
visible delete drops it, otherwise the row with visible updates applied. -/
def flushRow (snap : MvccSnapshot) (cir : CompactionInputRow) : Option RowData :=
  applyVisible snap cir.row cir.mutationHead

/-- Modelled from the spec: `Flush(input, snap, out)`, whose body is absent
from the sources.  Drains the input, applying snapshot-visible mutations and
writing surviving rows, in input order, to the output row set writer
(the output is modelled as the list of written rows). -/
def Flush (input : List CompactionInputRow) (snap : MvccSnapshot) : List RowData :=
  input.filterMap (flushRow snap)

/-- The mutations of a chain committed under a snapshot. -/
def visibleMuts (snap : MvccSnapshot) (chain : List Mutation) : List Mutation :=
  chain.filter (fun m => snap.isCommitted m.txid)

/-- The mutations of a chain not visible under `excl` but visible under
`incl` — those committed strictly within the compaction window. -/
def missedMuts (excl incl : MvccSnapshot) (chain : List Mutation) : List Mutation :=
  chain.filter (fun m => !excl.isCommitted m.txid && incl.isCommitted m.txid)

/-- Modelled from the spec: `ReupdateMissedDeltas(input, excl, incl, tracker)`,
whose body is absent from the sources.  Replays into the delta tracker, in
chain order, exactly the mutations committed after `excl` but by `incl`
(the tracker is modelled as the list of replayed mutations). -/
def ReupdateMissedDeltas (input : List CompactionInputRow) (excl incl : MvccSnapshot) :
    List Mutation :=
  input.flatMap (fun cir => missedMuts excl incl cir.mutationHead)

/-- The mutations Flush applies when draining `input` under `snap`:
per row, the snapshot-visible part of its chain, in chain order. -/
def flushAppliedMuts (input : List CompactionInputRow) (snap : MvccSnapshot) : List Mutation :=
  input.flatMap (fun cir => visibleMuts snap cir.mutationHead)

/-- The primary key of a compaction input row, as compared by the merge. -/
def rowKey (cir : CompactionInputRow) : Nat := cir.row.key

/-- Modelled from the spec: the lookahead selection step of the N-way merge.
Among the still-live (nonempty) inputs, returns the index and head row of the
one with the globally minimum key; on key ties the first input in the list
wins. -/
def pickMin {α : Type} (k : α → Nat) : List (List α) → Option (Nat × α)
  | [] => none
  | [] :: rest => (pickMin k rest).map (fun p => (p.1 + 1, p.2))
  | (x :: _) :: rest =>
    match pickMin k rest with
    | none => some (0, x)
    | some (j, y) => if k x ≤ k y then some (0, x) else some (j + 1, y)

/-- Advance input `j` past its head row (the merge advances only the selected
input's cursor). -/
def popFront {α : Type} : Nat → List (List α) → List (List α)
  | _, [] => []
  | 0, l :: rest => l.tail :: rest
  | j + 1, l :: rest => l :: popFront j rest

/-- Total number of rows left across all inputs. -/
def totalLen {α : Type} (ls : List (List α)) : Nat := (ls.map List.length).sum

def pickMin_get {α : Type} (k : α → Nat) :
    ∀ (inputs : List (List α)) (j : Nat) (y : α),
      pickMin k inputs = some (j, y) → ∃ t, inputs.get? j = some (y :: t)
  | [], j, y, h => by simp [pickMin] at h
  | [] :: rest, j, y, h => by
    simp only [pickMin, Option.map_eq_some'] at h
    obtain ⟨⟨j', y'⟩, hrec, heq⟩ := h
    simp only [Prod.mk.injEq] at heq
    obtain ⟨rfl, rfl⟩ := heq
    obtain ⟨t, ht⟩ := pickMin_get k rest j' y' hrec
    exact ⟨t, by simpa using ht⟩
  | (x :: xs) :: rest, j, y, h => by
    cases hrec : pickMin k rest with
    | none =>
      simp only [pickMin, hrec, Option.some.injEq, Prod.mk.injEq] at h
      obtain ⟨rfl, rfl⟩ := h
      exact ⟨xs, rfl⟩
    | some p =>
      obtain ⟨j', y'⟩ := p
      simp only [pickMin, hrec] at h
      by_cases hle : k x ≤ k y'
      · rw [if_pos hle] at h
        simp only [Option.some.injEq, Prod.mk.injEq] at h
        obtain ⟨rfl, rfl⟩ := h
        exact ⟨xs, rfl⟩
      · rw [if_neg hle] at h
        simp only [Option.some.injEq, Prod.mk.injEq] at h
        obtain ⟨rfl, rfl⟩ := h
        obtain ⟨t, ht⟩ := pickMin_get k rest j' y' hrec
        exact ⟨t, by simpa using ht⟩

def totalLen_popFront {α : Type} :
    ∀ (inputs : List (List α)) (j : Nat) (y : α) (t : List α),
      inputs.get? j = some (y :: t) → totalLen (popFront j inputs) + 1 = totalLen inputs
  | [], j, y, t, h => by simp at h
  | l :: rest, 0, y, t, h => by
    obtain rfl : l = y :: t := by simpa using h
    simp [popFront, totalLen]
    omega
  | l :: rest, j + 1, y, t, h => by
    have := totalLen_popFront rest j y t (by simpa using h)
    simp [popFront, totalLen] at this ⊢
    omega

/-- Modelled from the spec: the N-way key-ordered merge over the row streams
of the inputs.  At each step extracts the minimum-key head row (first input
wins ties) and advances only that input. -/
def mergeAll {α : Type} (k : α → Nat) (inputs : List (List α)) : List α :=
  match h : pickMin k inputs with
  | none => []
  | some (j, y) =>
    y :: mergeAll k (popFront j inputs)
termination_by totalLen inputs
decreasing_by
  obtain ⟨t, ht⟩ := pickMin_get k inputs j y h
  have := totalLen_popFront inputs j y t ht
  omega

/-- A compaction input, modelled by its schema and the full stream of rows it
would yield over its lifetime. -/
structure CompactionInputModel where
  schema : Schema
  rows : List CompactionInputRow
deriving DecidableEq, Repr

/-- Modelled from the spec: `CompactionInput::Merge(inputs, schema)` — fails at
construction time if any input's schema differs structurally from `schema`;
otherwise yields the N-way key-ordered merge of the input streams. -/
def Merge (inputs : List CompactionInputModel) (schema : Schema) :
    Except String CompactionInputModel :=
  if inputs.all (fun i => Schema.structMatches i.schema schema) then
    Except.ok ⟨schema, mergeAll rowKey (inputs.map (fun i => i.rows))⟩
  else
    Except.error "schema mismatch"

/-- The state of a compaction input iterator: the blocks not yet yielded, and
the block currently prepared (valid until the matching FinishBlock). -/
structure CompactionInputState where
  remaining : List (List CompactionInputRow)
  prepared : List CompactionInputRow
deriving DecidableEq, Repr

/-- Modelled from the spec: `HasMoreBlocks()` — true until the source is
exhausted. -/
def HasMoreBlocks (s : CompactionInputState) : Bool := !s.remaining.isEmpty

/-- Modelled from the spec: `PrepareBlock(out)` — produces the next batch of
rows; once the source is exhausted it yields no rows (and never the stale
contents of a previously prepared block). -/
def PrepareBlock (s : CompactionInputState) : List CompactionInputRow × CompactionInputState :=
  match s.remaining with
  | [] => ([], { s with prepared := [] })
  | b :: rest => (b, { remaining := rest, prepared := b })

/-- Modelled from the spec: `FinishBlock()` — releases the memory backing the
most recent block. -/
def FinishBlock (s : CompactionInputState) : CompactionInputState :=
  { s with prepared := [] }

/-- The rows yielded by `n` PrepareBlock/FinishBlock cycles from state `s`. -/
def drainRows : Nat → CompactionInputState → List CompactionInputRow
  | 0, _ => []
  | n + 1, s => (PrepareBlock s).1 ++ drainRows n (FinishBlock (PrepareBlock s).2)

/-- A try-acquired advisory lock on a row set
(boost::mutex::scoped_try_lock in the source). -/
structure TryLock where
  ownsLock : Bool
deriving DecidableEq, Repr

/-- A row set participating in a compaction: its schema, its stored rows, and
an optional I/O failure that makes its CompactionInput fail to construct. -/
structure RowSetModel where
  schema : Schema
  rows : List DiskRow
  ioFailure : Option String
deriving DecidableEq, Repr

/-- Modelled from the spec: constructing a rowset's own CompactionInput,
which fails when the underlying source cannot be opened. -/
def RowSetModel.newCompactionInput (rs : RowSetModel) (snap : MvccSnapshot) :
    Except String CompactionInputModel :=
  match rs.ioFailure with
  | some e => Except.error e
  | none => Except.ok ⟨rs.schema, createFromDiskRowSet ⟨rs.rows⟩ snap⟩

/-- The set of rowsets taking part in a given compaction, with the locks held
on them (RowSetsInCompaction in the source). -/
structure RowSetsInCompaction where
  rowsets : List RowSetModel
  locks : List TryLock

/-- The empty selection. -/
def RowSetsInCompaction.empty : RowSetsInCompaction := ⟨[], []⟩

/-- `RowSetsInCompaction::AddRowSet`, from the inline body in the header:
`CHECK(lock->owns_lock())`, then push the lock and the rowset.  The CHECK
failure branch is modelled as `none`. -/
def AddRowSet (c : RowSetsInCompaction) (rs : RowSetModel) (lock : TryLock) :
    Option RowSetsInCompaction :=
  if lock.ownsLock then
    some ⟨c.rowsets ++ [rs], c.locks ++ [lock]⟩
  else
    none

/-- Fallible map over a list in the Except monad, failing on the first error
(the shape of the per-rowset construction loop). -/
def mapME {β γ : Type} (f : β → Except String γ) : List β → Except String (List γ)
  | [] => Except.ok []
  | b :: rest =>
    match f b with
    | Except.error e => Except.error e
    | Except.ok g =>
      match mapME f rest with
      | Except.error e => Except.error e
      | Except.ok gs => Except.ok (g :: gs)

/-- Modelled from the spec: `RowSetsInCompaction::CreateCompactionInput` — with
exactly one rowset, returns its own CompactionInput directly; otherwise merges
the CompactionInputs of all rowsets, failing if any fails to construct. -/
def CreateCompactionInput (c : RowSetsInCompaction) (snap : MvccSnapshot) (schema : Schema) :
    Except String CompactionInputModel :=
  match c.rowsets with
  | [rs] => rs.newCompactionInput snap
  | _ =>
    match mapME (fun rs => rs.newCompactionInput snap) c.rowsets with
    | Except.error e => Except.error e
    | Except.ok inputs => Merge inputs schema

/-- The error categories of a non-OK Status used by the wire-protocol tests. -/
inductive ErrorCode
  | notFound
  | corruption
  | ioError
  | invalidArgument
deriving DecidableEq, Repr

/-- A Status: OK, or an error with its category, message and optional posix
code. -/
inductive Status
  | ok
  | err (code : ErrorCode) (msg : String) (posix : Option Int)
deriving DecidableEq, Repr

/-- `Status::NotFound(msg, msg2)` concatenates the two parts as "msg: msg2". -/
def Status.NotFound (a b : String) : Status :=
  Status.err ErrorCode.notFound (a ++ ": " ++ b) none

/-- `Status::NotFound(msg, msg2, posix_code)`. -/
def Status.NotFoundPosix (a b : String) (p : Int) : Status :=
  Status.err ErrorCode.notFound (a ++ ": " ++ b) (some p)

/-- The code field of an AppStatusPB: OK or an error category. -/
inductive AppStatusCode
  | ok
  | error (c : ErrorCode)
deriving DecidableEq, Repr

/-- The AppStatusPB protobuf: code, optional message, optional posix code. -/
structure AppStatusPB where
  code : AppStatusCode
  message : Option String
  posixCode : Option Int
deriving DecidableEq, Repr

/-- Modelled from the spec: `StatusToPB`, whose body is absent from the
sources (only its tests are) — an OK status maps to code OK with no message
and no posix code; an error carries its category, message and posix code. -/
def StatusToPB : Status → AppStatusPB
  | Status.ok => ⟨AppStatusCode.ok, none, none⟩
  | Status.err c m p => ⟨AppStatusCode.error c, some m, p⟩

/-- Modelled from the spec: `StatusFromPB`, whose body is absent from the
sources (only its tests are). -/
def StatusFromPB (pb : AppStatusPB) : Status :=
  match pb.code with
  | AppStatusCode.ok => Status.ok
  | AppStatusCode.error c => Status.err c (pb.message.getD "") pb.posixCode

/-- The ColumnSchemaPB protobuf: name, type, key flag, nullability. -/
structure ColumnSchemaPB where
  name : String
  type : DataType
  isKey : Bool
  isNullable : Bool
deriving DecidableEq, Repr

/-- Helper for `SchemaToColumnPBs`: marks the first `k` columns as keys. -/
def toColumnPBs : Nat → List ColumnSchema → List ColumnSchemaPB
  | _, [] => []
  | 0, c :: rest => ⟨c.name, c.type, false, c.nullable⟩ :: toColumnPBs 0 rest
  | k + 1, c :: rest => ⟨c.name, c.type, true, c.nullable⟩ :: toColumnPBs k rest

/-- Modelled from the spec: `SchemaToColumnPBs`, whose body is absent from the
sources (only its tests are) — one ColumnSchemaPB per column, the first
`num_key_columns` marked `is_key`. -/
def SchemaToColumnPBs (s : Schema) : List ColumnSchemaPB :=
  toColumnPBs s.numKeyCols s.cols

/-- Helper for `ColumnPBsToSchema`: key columns must form a contiguous prefix;
`sawNonKey` records whether a non-key column has been seen. -/
def checkContiguousKeys (sawNonKey : Bool) : List ColumnSchemaPB → Except String Unit
  | [] => Except.ok ()
  | c :: rest =>
    if c.isKey && sawNonKey then Except.error "Got out-of-order key column"
    else checkContiguousKeys (sawNonKey || !c.isKey) rest

/-- Number of leading key-flagged columns. -/
def countLeadingKeys : List ColumnSchemaPB → Nat
  | [] => 0
  | c :: rest => if c.isKey then countLeadingKeys rest + 1 else 0

/-- Modelled from the spec: `ColumnPBsToSchema`, whose body is absent from the
sources (only its tests are) — rejects a key column appearing after a non-key
column and duplicate column names; otherwise rebuilds the schema with the
leading key-flagged columns as the key. -/
def ColumnPBsToSchema (pbs : List ColumnSchemaPB) : Except String Schema :=
  match checkContiguousKeys false pbs with
  | Except.error e => Except.error e
  | Except.ok _ =>
    if (pbs.map (fun p => p.name)).Nodup then
      Except.ok ⟨pbs.map (fun p => ⟨p.name, p.type, p.isNullable⟩), countLeadingKeys pbs⟩
    else
      Except.error "Duplicate name present"

/-- A concrete snapshot family for instantiating theorems: everything
committed at or before transaction `n` is visible. -/
def snapAt (n : Nat) : MvccSnapshot := ⟨fun t => decide (t ≤ n)⟩

/-! ### Lemmas about the merge selection step -/

theorem pickMin_none {α : Type} (k : α → Nat) :
    ∀ (inputs : List (List α)), pickMin k inputs = none → ∀ l ∈ inputs, l = []
  | [], _, l, hl => by simp at hl
  | [] :: rest, h, l, hl => by
    simp only [pickMin, Option.map_eq_none'] at h
    rcases List.mem_cons.mp hl with rfl | hl
    · rfl
    · exact pickMin_none k rest h l hl
  | (x :: xs) :: rest, h, l, hl => by
    exfalso
    cases hrec : pickMin k rest with
    | none => simp [pickMin, hrec] at h
    | some p =>
      obtain ⟨j', y'⟩ := p
      simp only [pickMin, hrec] at h
      by_cases hle : k x ≤ k y' <;> simp [hle] at h

theorem pickMin_le {α : Type} (k : α → Nat) :
    ∀ (inputs : List (List α)) (j : Nat) (y : α),
      pickMin k inputs = some (j, y) →
      ∀ (i : Nat) (x : α) (t : List α), inputs.get? i = some (x :: t) → k y ≤ k x
  | [], j, y, h, i, x, t, hi => by simp at hi
  | [] :: rest, j, y, h, i, x, t, hi => by
    simp only [pickMin, Option.map_eq_some'] at h
    obtain ⟨⟨j', y'⟩, hrec, heq⟩ := h
    simp only [Prod.mk.injEq] at heq
    obtain ⟨rfl, rfl⟩ := heq
    cases i with
    | zero => simp at hi
    | succ i' => exact pickMin_le k rest j' y' hrec i' x t (by simpa using hi)
  | (x0 :: xs) :: rest, j, y, h, i, x, t, hi => by
    cases hrec : pickMin k rest with
    | none =>
      simp only [pickMin, hrec, Option.some.injEq, Prod.mk.injEq] at h
      obtain ⟨rfl, rfl⟩ := h
      cases i with
      | zero =>
        obtain ⟨rfl, rfl⟩ : x0 = x ∧ xs = t := by simpa using hi
        exact Nat.le_refl _
      | succ i' =>
        exfalso
        have hall := pickMin_none k rest hrec
        have hmem : (x :: t) ∈ rest := List.get?_mem (by simpa using hi)
        simpa using hall _ hmem
    | some p =>
      obtain ⟨j', y'⟩ := p
      simp only [pickMin, hrec] at h
      by_cases hle : k x0 ≤ k y'
      · rw [if_pos hle] at h
        simp only [Option.some.injEq, Prod.mk.injEq] at h
        obtain ⟨rfl, rfl⟩ := h
        cases i with
        | zero =>
          obtain ⟨rfl, rfl⟩ : x0 = x ∧ xs = t := by simpa using hi
          exact Nat.le_refl _
        | succ i' =>
          exact Nat.le_trans hle (pickMin_le k rest j' y' hrec i' x t (by simpa using hi))
      · rw [if_neg hle] at h
        simp only [Option.some.injEq, Prod.mk.injEq] at h
        obtain ⟨rfl, rfl⟩ := h
        cases i with
        | zero =>
          obtain ⟨rfl, rfl⟩ : x0 = x ∧ xs = t := by simpa using hi
          exact Nat.le_of_lt (Nat.lt_of_not_le hle)
        | succ i' =>
          exact pickMin_le k rest j' y' hrec i' x t (by simpa using hi)

theorem pickMin_first {α : Type} (k : α → Nat) :
    ∀ (inputs : List (List α)) (j : Nat) (y : α),
      pickMin k inputs = some (j, y) →
      ∀ (i : Nat) (x : α) (t : List α), i < j → inputs.get? i = some (x :: t) → k y < k x
  | [], j, y, h, i, x, t, hij, hi => by simp at hi
  | [] :: rest, j, y, h, i, x, t, hij, hi => by
    simp only [pickMin, Option.map_eq_some'] at h
    obtain ⟨⟨j', y'⟩, hrec, heq⟩ := h
    simp only [Prod.mk.injEq] at heq
    obtain ⟨rfl, rfl⟩ := heq
    cases i with
    | zero => simp at hi
    | succ i' =>
      exact pickMin_first k rest j' y' hrec i' x t (Nat.lt_of_succ_lt_succ hij)
        (by simpa using hi)
  | (x0 :: xs) :: rest, j, y, h, i, x, t, hij, hi => by
    cases hrec : pickMin k rest with
    | none =>
      simp only [pickMin, hrec, Option.some.injEq, Prod.mk.injEq] at h
      obtain ⟨rfl, rfl⟩ := h
      exact absurd hij (Nat.not_lt_zero i)
    | some p =>
      obtain ⟨j', y'⟩ := p
      simp only [pickMin, hrec] at h
      by_cases hle : k x0 ≤ k y'
      · rw [if_pos hle] at h
        simp only [Option.some.injEq, Prod.mk.injEq] at h
        obtain ⟨rfl, rfl⟩ := h
        exact absurd hij (Nat.not_lt_zero i)
      · rw [if_neg hle] at h
        simp only [Option.some.injEq, Prod.mk.injEq] at h
        obtain ⟨rfl, rfl⟩ := h
        cases i with
        | zero =>
          obtain ⟨rfl, rfl⟩ : x0 = x ∧ xs = t := by simpa using hi
          exact Nat.lt_of_not_le hle
        | succ i' =>
          exact pickMin_first k rest j' y' hrec i' x t (Nat.lt_of_succ_lt_succ hij)
            (by simpa using hi)

theorem popFront_get {α : Type} :
    ∀ (inputs : List (List α)) (j : Nat) (y : α) (t : List α),
      inputs.get? j = some (y :: t) →
      ∀ i : Nat, (popFront j inputs).get? i = if i = j then some t else inputs.get? i
  | [], j, y, t, h, i => by simp at h
  | l :: rest, 0, y, t, h, i => by
    obtain rfl : l = y :: t := by simpa using h
    cases i with
    | zero => simp [popFront]
    | succ i' => simp [popFront]
  | l :: rest, j + 1, y, t, h, i => by
    cases i with
    | zero => simp [popFront]
    | succ i' =>
      have ih := popFront_get rest j y t (by simpa using h) i'
      simp only [popFront, List.get?_cons_succ, ih]
      by_cases hij : i' = j
      · simp [hij]
      · simp [hij, fun hh => hij (Nat.succ_injective hh)]

theorem popFront_flatten {α : Type} :
    ∀ (inputs : List (List α)) (j : Nat) (y : α) (t : List α),
      inputs.get? j = some (y :: t) →
      List.Perm (y :: (popFront j inputs).flatten) inputs.flatten
  | [], j, y, t, h => by simp at h
  | l :: rest, 0, y, t, h => by
    obtain rfl : l = y :: t := by simpa using h
    simp [popFront]
  | l :: rest, j + 1, y, t, h => by
    have ih := popFront_flatten rest j y t (by simpa using h)
    simp only [popFront, List.flatten_cons]
    exact (List.perm_middle).symm.trans (List.Perm.append_left l ih)

theorem mergeAll_perm {α : Type} (k : α → Nat) (inputs : List (List α)) :
    List.Perm (mergeAll k inputs) inputs.flatten := by
  generalize hn : totalLen inputs = n
  induction n using Nat.strong_induction_on generalizing inputs with
  | _ n ih =>
    rw [mergeAll]
    split
    next hnone =>
      have hall := pickMin_none k inputs hnone
      have hj : inputs.flatten = [] := by
        simp only [List.flatten_eq_nil_iff]
        exact hall
      simp [hj]
    next j y hsome =>
      obtain ⟨t, ht⟩ := pickMin_get k inputs j y hsome
      have hlt : totalLen (popFront j inputs) < n := by
        have := totalLen_popFront inputs j y t ht
        omega
      exact (List.Perm.cons y (ih _ hlt _ rfl)).trans (popFront_flatten inputs j y t ht)

/-- The merge output is non-decreasing under the key function, and on key
ties the tag (input index) is non-decreasing — provided every input is sorted
by key and input `i` carries tag `i` on all its rows. -/
theorem mergeAll_pairwise {α : Type} (k tg : α → Nat) (inputs : List (List α))
    (hs : ∀ i l, inputs.get? i = some l → List.Pairwise (fun a b => k a ≤ k b) l)
    (ht : ∀ i l, inputs.get? i = some l → ∀ x ∈ l, tg x = i) :
    List.Pairwise (fun a b => k a < k b ∨ (k a = k b ∧ tg a ≤ tg b)) (mergeAll k inputs) := by
  generalize hn : totalLen inputs = n
  induction n using Nat.strong_induction_on generalizing inputs with
  | _ n ih =>
    rw [mergeAll]
    split
    next => exact List.Pairwise.nil
    next j y hsome =>
      obtain ⟨t, hget⟩ := pickMin_get k inputs j y hsome
      have hpop := popFront_get inputs j y t hget
      have hlt : totalLen (popFront j inputs) < n := by
        have := totalLen_popFront inputs j y t hget
        omega
      refine List.Pairwise.cons ?_ ?_
      · intro z hz
        have hzflat : z ∈ (popFront j inputs).flatten :=
          (mergeAll_perm k (popFront j inputs)).mem_iff.mp hz
        rw [List.mem_flatten] at hzflat
        obtain ⟨l', hl', hzl'⟩ := hzflat
        obtain ⟨i, hil'⟩ := List.get?_of_mem hl'
        rw [hpop i] at hil'
        by_cases hij : i = j
        · rw [if_pos hij] at hil'
          obtain rfl : t = l' := by simpa using hil'
          have hsj := hs j (y :: t) hget
          have hky : k y ≤ k z := (List.pairwise_cons.mp hsj).1 z hzl'
          rcases Nat.lt_or_ge (k y) (k z) with hlt' | hge
          · exact Or.inl hlt'
          · refine Or.inr ⟨Nat.le_antisymm hky hge, ?_⟩
            have htj := ht j (y :: t) hget
            rw [htj y (List.mem_cons_self y t), htj z (List.mem_cons_of_mem y hzl')]
        · rw [if_neg hij] at hil'
          cases l' with
          | nil => simp at hzl'
          | cons w ws =>
            have hkyw : k y ≤ k w := pickMin_le k inputs j y hsome i w ws hil'
            have hsl := hs i (w :: ws) hil'
            have hkwz : k w ≤ k z := by
              rcases List.mem_cons.mp hzl' with rfl | hz'
              · exact Nat.le_refl _
              · exact (List.pairwise_cons.mp hsl).1 z hz'
            by_cases hltij : i < j
            · exact Or.inl (Nat.lt_of_lt_of_le
                (pickMin_first k inputs j y hsome i w ws hltij hil') hkwz)
            · have hji : j < i :=
                Nat.lt_of_le_of_ne (Nat.not_lt.mp hltij) (Ne.symm hij)
              rcases Nat.lt_or_ge (k y) (k z) with hlt' | hge
              · exact Or.inl hlt'
              · refine Or.inr ⟨Nat.le_antisymm (Nat.le_trans hkyw hkwz) hge, ?_⟩
                rw [ht j (y :: t) hget y (List.mem_cons_self y t),
                  ht i (w :: ws) hil' z hzl']
                exact Nat.le_of_lt hji
      · refine ih _ hlt (popFront j inputs) ?_ ?_ rfl
        · intro i l hl
          rw [hpop i] at hl
          by_cases hij : i = j
          · rw [if_pos hij] at hl
            obtain rfl : t = l := by simpa using hl
            exact (List.pairwise_cons.mp (hs j (y :: t) hget)).2
          · rw [if_neg hij] at hl
            exact hs i l hl
        · intro i l hl x hx
          rw [hpop i] at hl
          by_cases hij : i = j
          · rw [if_pos hij] at hl
            obtain rfl : t = l := by simpa using hl
            rw [hij]
            exact ht j (y :: t) hget x (List.mem_cons_of_mem y hx)
          · rw [if_neg hij] at hl
            exact ht i l hl x hx

/-- Mapping the rows of every input commutes with the merge selection step,
when the key function factors through the map. -/
theorem pickMin_map {α β : Type} (k : α → Nat) (f : β → α) :
    ∀ (inputs : List (List β)),
      pickMin k (inputs.map (List.map f)) =
        (pickMin (fun b => k (f b)) inputs).map (fun p => (p.1, f p.2))
  | [] => by simp [pickMin]
  | [] :: rest => by
    simp only [List.map_cons, List.map_nil, pickMin, pickMin_map k f rest]
    cases pickMin (fun b => k (f b)) rest <;> simp
  | (x :: xs) :: rest => by
    simp only [List.map_cons, pickMin, pickMin_map k f rest]
    cases pickMin (fun b => k (f b)) rest with
    | none => simp
    | some p =>
      obtain ⟨j', y'⟩ := p
      by_cases hle : k (f x) ≤ k (f y') <;> simp [hle]

theorem popFront_map {α β : Type} (f : β → α) :
    ∀ (j : Nat) (inputs : List (List β)),
      popFront j (inputs.map (List.map f)) = (popFront j inputs).map (List.map f)
  | _, [] => by simp [popFront]
  | 0, l :: rest => by cases l <;> simp [popFront]
  | j + 1, l :: rest => by simp [popFront, popFront_map f j rest]

/-- The merge commutes with mapping each input's rows, when the key function
factors through the map: merging and then stripping tags is the same as
stripping tags and then merging. -/
theorem mergeAll_map {α β : Type} (k : α → Nat) (f : β → α) (inputs : List (List β)) :
    mergeAll k (inputs.map (List.map f)) = (mergeAll (fun b => k (f b)) inputs).map f := by
  generalize hn : totalLen inputs = n
  induction n using Nat.strong_induction_on generalizing inputs with
  | _ n ih =>
    conv_lhs => rw [mergeAll]
    conv_rhs => rw [mergeAll]
    split
    next hnone =>
      rw [pickMin_map k f inputs] at hnone
      split
      next => simp
      next j' y' hsome' => rw [hsome'] at hnone; simp at hnone
    next j y hsome =>
      rw [pickMin_map k f inputs] at hsome
      split
      next hnone' => rw [hnone'] at hsome; simp at hsome
      next j' y' hsome' =>
        rw [hsome'] at hsome
        simp only [Option.map_some', Option.some.injEq, Prod.mk.injEq] at hsome
        obtain ⟨rfl, rfl⟩ := hsome
        obtain ⟨t, hget⟩ := pickMin_get (fun b => k (f b)) inputs j' y' hsome'
        have hlt : totalLen (popFront j' inputs) < n := by
          have := totalLen_popFront inputs j' y' t hget
          omega
        rw [List.map_cons, popFront_map f j' inputs]
        exact congrArg (f y' :: ·) (ih _ hlt (popFront j' inputs) rfl)

/-! ### Lemmas about walking mutation chains -/

theorem applyChange_none (c : MutationChange) : applyChange none c = none := by
  cases c <;> rfl

theorem foldl_applyChange_none (ms : List Mutation) :
    ms.foldl (fun acc m => applyChange acc m.change) none = none := by
  induction ms with
  | nil => rfl
  | cons m rest ih => simpa [applyChange_none] using ih

/-- Skipping invisible mutations during the fold is the same as folding over
the snapshot-visible part of the chain. -/
theorem applyVisible_eq_foldl_visibleMuts (snap : MvccSnapshot) (chain : List Mutation) :
    ∀ acc : Option RowData,
      chain.foldl (fun acc m => if snap.isCommitted m.txid then applyChange acc m.change else acc)
          acc
        = (visibleMuts snap chain).foldl (fun acc m => applyChange acc m.change) acc := by
  induction chain with
  | nil => intro acc; rfl
  | cons m rest ih =>
    intro acc
    by_cases hc : snap.isCommitted m.txid = true
    · simp only [List.foldl_cons, if_pos hc, visibleMuts, List.filter_cons, hc, ite_true]
      exact ih _
    · have hc' : snap.isCommitted m.txid = false := by
        cases hcc : snap.isCommitted m.txid
        · rfl
        · exact absurd hcc hc
      simp only [List.foldl_cons, if_neg hc, visibleMuts, List.filter_cons, hc',
        Bool.false_eq_true, ite_false]
      exact ih _

/-- A delete anywhere in the folded chain drops the row for good. -/
theorem foldl_applyChange_delete (ms : List Mutation)
    (h : ∃ m ∈ ms, m.change = MutationChange.delete) :
    ∀ acc : Option RowData, ms.foldl (fun acc m => applyChange acc m.change) acc = none := by
  induction ms with
  | nil => simp at h
  | cons m rest ih =>
    intro acc
    obtain ⟨m', hm', hdel⟩ := h
    rcases List.mem_cons.mp hm' with rfl | hmem
    · simp only [List.foldl_cons, hdel]
      have : applyChange acc MutationChange.delete = none := by
        cases acc <;> rfl
      rw [this, foldl_applyChange_none]
    · simp only [List.foldl_cons]
      exact ih ⟨m', hmem, hdel⟩ _

/-! ### Claim theorems for the compaction engine -/

/-- **C1** (Flush snapshot correctness).  Draining a compaction input under a
snapshot: a yielded row with a delete mutation committed at or before the
snapshot is absent from the Flush output; a yielded row whose visible chain is
a single update is written with the updated column value applied; a yielded
row with no visible mutations is written unchanged; and mutations not
committed under the snapshot never affect the result (the fold only sees the
snapshot-visible part of the chain). -/
theorem flush_snapshot_visibility (snap : MvccSnapshot) (cir : CompactionInputRow)
    (rest : List CompactionInputRow) :
    ((∃ m ∈ cir.mutationHead,
        snap.isCommitted m.txid = true ∧ m.change = MutationChange.delete) →
      Flush (cir :: rest) snap = Flush rest snap)
    ∧ (∀ t c v, visibleMuts snap cir.mutationHead = [⟨t, MutationChange.update c v⟩] →
      Flush (cir :: rest) snap
        = { cir.row with cols := cir.row.cols.set c v } :: Flush rest snap)
    ∧ ((∀ m ∈ cir.mutationHead, snap.isCommitted m.txid = false) →
      Flush (cir :: rest) snap = cir.row :: Flush rest snap)
    ∧ flushRow snap cir
        = (visibleMuts snap cir.mutationHead).foldl (fun acc m => applyChange acc m.change)
            (some cir.row) := by
  have hfold : flushRow snap cir
      = (visibleMuts snap cir.mutationHead).foldl (fun acc m => applyChange acc m.change)
          (some cir.row) :=
    applyVisible_eq_foldl_visibleMuts snap cir.mutationHead (some cir.row)
  refine ⟨?_, ?_, ?_, hfold⟩
  · rintro ⟨m, hm, hcomm, hdel⟩
    have hnone : flushRow snap cir = none := by
      rw [hfold]
      refine foldl_applyChange_delete _ ⟨m, ?_, hdel⟩ _
      exact List.mem_filter.mpr ⟨hm, by simp [hcomm]⟩
    simp [Flush, List.filterMap_cons, hnone]
  · intro t c v hvis
    have hsome : flushRow snap cir = some { cir.row with cols := cir.row.cols.set c v } := by
      rw [hfold, hvis]
      rfl
    simp [Flush, List.filterMap_cons, hsome]
  · intro hinvis
    have hnilvis : visibleMuts snap cir.mutationHead = [] := by
      simp only [visibleMuts, List.filter_eq_nil_iff]
      intro m hm
      simp [hinvis m hm]
    have hsome : flushRow snap cir = some cir.row := by
      rw [hfold, hnilvis]
      rfl
    simp [Flush, List.filterMap_cons, hsome]

/-- Splitting a filtered list along a stronger predicate: the part visible
under the weak predicate plus the part visible only under the strong one is a
permutation of the part visible under the strong predicate. -/
theorem filter_split_perm {α : Type} (p q : α → Bool) (hpq : ∀ a, p a = true → q a = true) :
    ∀ xs : List α,
      List.Perm (xs.filter p ++ xs.filter (fun a => !p a && q a)) (xs.filter q)
  | [] => by simp
  | x :: xs => by
    by_cases hp : p x = true
    · have hq := hpq x hp
      simp only [List.filter_cons, hp, hq, Bool.not_true, Bool.false_and, ite_true,
        Bool.false_eq_true, ite_false, List.cons_append]
      exact List.Perm.cons x (filter_split_perm p q hpq xs)
    · have hp' : p x = false := by
        cases hpp : p x
        · rfl
        · exact absurd hpp hp
      by_cases hq : q x = true
      · simp only [List.filter_cons, hp', hq, Bool.not_false, Bool.true_and,
          Bool.false_eq_true, ite_false, ite_true]
        exact List.perm_middle.trans (List.Perm.cons x (filter_split_perm p q hpq xs))
      · have hq' : q x = false := by
          cases hqq : q x
          · rfl
          · exact absurd hqq hq
        simp only [List.filter_cons, hp', hq', Bool.not_false, Bool.true_and,
          Bool.false_eq_true, ite_false]
        exact filter_split_perm p q hpq xs

theorem flatMap_append_perm {α β : Type} (f g h : α → List β)
    (hp : ∀ a, List.Perm (f a ++ g a) (h a)) :
    ∀ xs : List α, List.Perm (xs.flatMap f ++ xs.flatMap g) (xs.flatMap h)
  | [] => by simp
  | x :: xs => by
    simp only [List.flatMap_cons]
    have key : List.Perm ((f x ++ xs.flatMap f) ++ (g x ++ xs.flatMap g))
        ((f x ++ g x) ++ (xs.flatMap f ++ xs.flatMap g)) := by
      rw [List.append_assoc, List.append_assoc]
      refine List.Perm.append_left (f x) ?_
      rw [← List.append_assoc, ← List.append_assoc]
      exact List.Perm.append_right _ List.perm_append_comm
    exact key.trans (List.Perm.append (hp x) (flatMap_append_perm f g h hp xs))

/-- **C3** (Reupdate completeness).  For exclude ⊆ include snapshots:
ReupdateMissedDeltas replays per row exactly the mutations not visible under
`excl` but visible under `incl`; Flush applies per row exactly the
`excl`-visible part of the chain; and the multiset union of the mutations
applied by Flush under `excl` and those replayed by ReupdateMissedDeltas is
exactly the multiset of mutations visible under `incl` — none lost, none
applied twice. -/
theorem reupdate_missed_deltas_complete (excl incl : MvccSnapshot)
    (input : List CompactionInputRow)
    (hsub : ∀ t, excl.isCommitted t = true → incl.isCommitted t = true) :
    (∀ cir ∈ input, ∀ m : Mutation,
      (m ∈ missedMuts excl incl cir.mutationHead ↔
        m ∈ cir.mutationHead ∧ excl.isCommitted m.txid = false
          ∧ incl.isCommitted m.txid = true))
    ∧ (∀ cir : CompactionInputRow, flushRow excl cir
        = (visibleMuts excl cir.mutationHead).foldl (fun acc m => applyChange acc m.change)
            (some cir.row))
    ∧ List.Perm (flushAppliedMuts input excl ++ ReupdateMissedDeltas input excl incl)
        (flushAppliedMuts input incl) := by
  refine ⟨?_, ?_, ?_⟩
  · intro cir _ m
    simp [missedMuts, List.mem_filter, Bool.and_eq_true, Bool.not_eq_true']
  · intro cir
    exact applyVisible_eq_foldl_visibleMuts excl cir.mutationHead (some cir.row)
  · refine flatMap_append_perm _ _ _ ?_ input
    intro cir
    exact filter_split_perm (fun m => excl.isCommitted m.txid)
      (fun m => incl.isCommitted m.txid) (fun m hm => hsub m.txid hm) cir.mutationHead

/-- **C2** (Merge order invariant).  Tag every row with the index of the input
it comes from.  If every input is sorted by primary key and input `i` carries
tag `i`, then the merge output is non-decreasing by key and, on equal keys,
non-decreasing by input index (first listed input wins ties); stripping the
tags gives exactly the row sequence of the untagged merge; and the output is a
permutation of all input rows. -/
theorem merge_order_invariant (tagged : List (List (Nat × CompactionInputRow)))
    (hsorted : ∀ i l, tagged.get? i = some l →
      List.Pairwise (fun a b => rowKey a.2 ≤ rowKey b.2) l)
    (htags : ∀ i l, tagged.get? i = some l → ∀ x ∈ l, x.1 = i) :
    List.Pairwise
      (fun a b => rowKey a.2 < rowKey b.2 ∨ (rowKey a.2 = rowKey b.2 ∧ a.1 ≤ b.1))
      (mergeAll (fun p => rowKey p.2) tagged)
    ∧ (mergeAll (fun p => rowKey p.2) tagged).map Prod.snd
        = mergeAll rowKey (tagged.map (List.map Prod.snd))
    ∧ List.Perm (mergeAll (fun p => rowKey p.2) tagged) tagged.flatten := by
  refine ⟨?_, ?_, ?_⟩
  · exact mergeAll_pairwise (fun p => rowKey p.2) Prod.fst tagged hsorted htags
  · exact (mergeAll_map rowKey Prod.snd tagged).symm
  · exact mergeAll_perm _ tagged

/-- **C4** (Disk-rowset compaction input).  A CompactionInput created from an
immutable on-disk row set and a snapshot yields exactly the base rows whose
insertion transaction is visible under the snapshot, and pairs every yielded
row with the full, unfiltered mutation chain of the source row — no mutation
is removed based on the snapshot. -/
theorem create_disk_input_spec (rs : DiskRowSet) (snap : MvccSnapshot)
    (cir : CompactionInputRow) :
    cir ∈ createFromDiskRowSet rs snap ↔
      ∃ dr, dr ∈ rs.rows ∧ snap.isCommitted dr.insertTxid = true
        ∧ cir.row = dr.row ∧ cir.mutationHead = dr.muts := by
  simp only [createFromDiskRowSet, List.mem_map, List.mem_filter]
  constructor
  · rintro ⟨dr, ⟨hmem, hcomm⟩, rfl⟩
    exact ⟨dr, hmem, hcomm, rfl, rfl⟩
  · rintro ⟨dr, hmem, hcomm, h1, h2⟩
    refine ⟨dr, ⟨hmem, hcomm⟩, ?_⟩
    cases cir
    simp_all

/-- **C5** (Schema mismatch rejection).  `Merge` fails at construction time —
uniformly in the row contents, so before any row is read — whenever some
input's schema differs structurally (column count, types or nullability) from
the given schema, and succeeds when all input schemas match. -/
theorem merge_schema_mismatch_rejection (inputs : List CompactionInputModel)
    (schema : Schema) :
    ((∃ inp ∈ inputs, Schema.structMatches inp.schema schema = false) →
      Merge inputs schema = Except.error "schema mismatch")
    ∧ ((∀ inp ∈ inputs, Schema.structMatches inp.schema schema = true) →
      Merge inputs schema
        = Except.ok ⟨schema, mergeAll rowKey (inputs.map (fun i => i.rows))⟩) := by
  constructor
  · rintro ⟨inp, hmem, hbad⟩
    have hall : inputs.all (fun i => Schema.structMatches i.schema schema) = false := by
      rw [List.all_eq_false]
      exact ⟨inp, hmem, by simp [hbad]⟩
    simp [Merge, hall]
  · intro hgood
    have hall : inputs.all (fun i => Schema.structMatches i.schema schema) = true :=
      List.all_eq_true.mpr hgood
    simp [Merge, hall]

/-- **C6** (Idempotent drains).  Once a compaction input is exhausted
(`HasMoreBlocks` is false), `PrepareBlock` yields no rows — never the stale
contents of a previously prepared block — and any number of further
PrepareBlock/FinishBlock cycles yield no rows at all. -/
theorem prepare_block_after_exhausted (s : CompactionInputState)
    (h : HasMoreBlocks s = false) :
    (PrepareBlock s).1 = []
    ∧ HasMoreBlocks (PrepareBlock s).2 = false
    ∧ (∀ n : Nat, drainRows n s = []) := by
  have hrem : s.remaining = [] := by
    simpa [HasMoreBlocks, List.isEmpty_iff] using h
  have hprep : ∀ s' : CompactionInputState, s'.remaining = [] →
      (PrepareBlock s').1 = [] ∧ (PrepareBlock s').2.remaining = [] := by
    intro s' hs'
    simp [PrepareBlock, hs']
  refine ⟨(hprep s hrem).1, ?_, ?_⟩
  · simp [HasMoreBlocks, List.isEmpty_iff, (hprep s hrem).2]
  · intro n
    induction n generalizing s with
    | zero => rfl
    | succ n ih =>
      have h1 := hprep s hrem
      have h2 : (FinishBlock (PrepareBlock s).2).remaining = [] := by
        simp [FinishBlock, h1.2]
      simp only [drainRows, h1.1, List.nil_append]
      exact ih _ (by simpa [HasMoreBlocks, List.isEmpty_iff] using h2) h2

/-- Error propagation through the fallible construction of all inputs. -/
theorem mapME_error_of_mem {β γ : Type} (f : β → Except String γ) :
    ∀ (xs : List β) (b : β), b ∈ xs → (∃ e, f b = Except.error e) →
      ∃ e, mapME f xs = Except.error e
  | [], b, hb, _ => by simp at hb
  | x :: xs, b, hb, ⟨e, he⟩ => by
    rcases List.mem_cons.mp hb with rfl | hmem
    · exact ⟨e, by simp [mapME, he]⟩
    · cases hx : f x with
      | error e' => exact ⟨e', by simp [mapME, hx]⟩
      | ok g =>
        obtain ⟨e', he'⟩ := mapME_error_of_mem f xs b hmem ⟨e, he⟩
        exact ⟨e', by simp [mapME, hx, he']⟩

/-- **C7** (CreateCompactionInput).  A selection holding exactly one row set
(one successful `AddRowSet` on an empty selection) returns that row set's own
CompactionInput directly, with no merge wrapper; a selection holding more than
one row set merges the CompactionInputs of all of them, failing whenever any
of them fails to construct. -/
theorem create_compaction_input_spec (c : RowSetsInCompaction) (snap : MvccSnapshot)
    (schema : Schema) :
    (∀ (rs : RowSetModel) (lock : TryLock) (c1 : RowSetsInCompaction),
      AddRowSet RowSetsInCompaction.empty rs lock = some c1 →
      CreateCompactionInput c1 snap schema = rs.newCompactionInput snap)
    ∧ (1 < c.rowsets.length →
        ((∃ rs ∈ c.rowsets, ∃ e, rs.newCompactionInput snap = Except.error e) →
          ∃ e, CreateCompactionInput c snap schema = Except.error e)
        ∧ (∀ inputs, mapME (fun rs => rs.newCompactionInput snap) c.rowsets
              = Except.ok inputs →
            CreateCompactionInput c snap schema = Merge inputs schema)) := by
  constructor
  · intro rs lock c1 hadd
    have hlock : lock.ownsLock = true := by
      by_contra hno
      simp [AddRowSet, hno] at hadd
    simp only [AddRowSet, hlock, if_true, Option.some.injEq] at hadd
    subst hadd
    rfl
  · obtain ⟨rsets, locks⟩ := c
    simp only
    intro hlen
    constructor
    · rintro ⟨rs, hmem, he⟩
      obtain ⟨e', he'⟩ :=
        mapME_error_of_mem (fun rs => rs.newCompactionInput snap) rsets rs hmem he
      refine ⟨e', ?_⟩
      match rsets, hlen, he' with
      | r1 :: r2 :: rrest, _, he' =>
        simp only [CreateCompactionInput, he']
    · intro inputs hok
      match rsets, hlen, hok with
      | r1 :: r2 :: rrest, _, hok =>
        simp only [CreateCompactionInput, hok]

/-- **C8** (AddRowSet precondition).  When the supplied try-lock is owned, the
CHECK in `AddRowSet` cannot fire: the call succeeds and appends exactly the
given row set and exactly the given lock to the selection. -/
theorem add_rowset_requires_lock (c : RowSetsInCompaction) (rs : RowSetModel)
    (lock : TryLock) (h : lock.ownsLock = true) :
    AddRowSet c rs lock = some ⟨c.rowsets ++ [rs], c.locks ++ [lock]⟩
    ∧ ∀ c' : RowSetsInCompaction, AddRowSet c rs lock = some c' →
        c'.rowsets.length = c.rowsets.length + 1
        ∧ c'.locks.length = c.locks.length + 1 := by
  constructor
  · simp [AddRowSet, h]
  · intro c' hc'
    simp only [AddRowSet, h, if_true, Option.some.injEq] at hc'
    rw [← hc']
    simp

/-- **C9** (Status round trip).  Converting a Status to an AppStatusPB and
back yields the same status; an OK status maps to a PB with code OK and no
message or posix code; NotFound statuses carry the "msg: msg2" message, and
the posix code exactly when one was given. -/
theorem status_pb_round_trip :
    (∀ s : Status, StatusFromPB (StatusToPB s) = s)
    ∧ StatusToPB Status.ok = ⟨AppStatusCode.ok, none, none⟩
    ∧ (∀ a b : String,
        StatusToPB (Status.NotFound a b)
          = ⟨AppStatusCode.error ErrorCode.notFound, some (a ++ ": " ++ b), none⟩)
    ∧ (∀ (a b : String) (p : Int),
        StatusToPB (Status.NotFoundPosix a b p)
          = ⟨AppStatusCode.error ErrorCode.notFound, some (a ++ ": " ++ b), some p⟩) := by
  refine ⟨?_, rfl, fun a b => rfl, fun a b p => rfl⟩
  intro s
  cases s <;> rfl

/-! ### Lemmas about the schema/column-PB conversions -/

theorem checkContiguousKeys_nonkeys :
    ∀ (b : Bool) (cols : List ColumnSchema),
      checkContiguousKeys b (toColumnPBs 0 cols) = Except.ok ()
  | _, [] => rfl
  | b, c :: rest => by
    simp only [toColumnPBs, checkContiguousKeys, Bool.false_and, Bool.not_false,
      Bool.or_true, Bool.false_eq_true, if_false]
    exact checkContiguousKeys_nonkeys true rest

theorem checkContiguousKeys_toColumnPBs :
    ∀ (k : Nat) (cols : List ColumnSchema),
      checkContiguousKeys false (toColumnPBs k cols) = Except.ok ()
  | 0, cols => checkContiguousKeys_nonkeys false cols
  | _ + 1, [] => rfl
  | k + 1, c :: rest => by
    simp only [toColumnPBs, checkContiguousKeys, Bool.and_false, Bool.not_true,
      Bool.or_false, Bool.false_eq_true, if_false]
    exact checkContiguousKeys_toColumnPBs k rest

theorem countLeadingKeys_toColumnPBs :
    ∀ (k : Nat) (cols : List ColumnSchema), k ≤ cols.length →
      countLeadingKeys (toColumnPBs k cols) = k
  | 0, [], _ => rfl
  | 0, _ :: _, _ => by simp [toColumnPBs, countLeadingKeys]
  | _ + 1, [], h => by simp at h
  | k + 1, c :: rest, h => by
    simp only [toColumnPBs, countLeadingKeys, ite_true]
    rw [countLeadingKeys_toColumnPBs k rest (by simpa using h)]

theorem map_toColumnPBs :
    ∀ (k : Nat) (cols : List ColumnSchema),
      (toColumnPBs k cols).map
          (fun p => (⟨p.name, p.type, p.isNullable⟩ : ColumnSchema)) = cols
  | 0, [] => rfl
  | 0, c :: rest => by simp [toColumnPBs, map_toColumnPBs 0 rest]
  | _ + 1, [] => rfl
  | k + 1, c :: rest => by simp [toColumnPBs, map_toColumnPBs k rest]

theorem names_toColumnPBs :
    ∀ (k : Nat) (cols : List ColumnSchema),
      (toColumnPBs k cols).map (fun p => p.name) = cols.map (fun c => c.name)
  | 0, [] => rfl
  | 0, c :: rest => by simp [toColumnPBs, names_toColumnPBs 0 rest]
  | _ + 1, [] => rfl
  | k + 1, c :: rest => by simp [toColumnPBs, names_toColumnPBs k rest]

theorem isKey_toColumnPBs :
    ∀ (k : Nat) (cols : List ColumnSchema) (i : Nat) (p : ColumnSchemaPB),
      (toColumnPBs k cols).get? i = some p → (p.isKey = true ↔ i < k)
  | 0, [], i, p, h => by simp [toColumnPBs] at h
  | 0, c :: rest, 0, p, h => by
    obtain rfl : _ = p := by simpa [toColumnPBs] using h
    simp
  | 0, c :: rest, i + 1, p, h => by
    have := isKey_toColumnPBs 0 rest i p (by simpa [toColumnPBs] using h)
    simpa using this
  | _ + 1, [], i, p, h => by simp [toColumnPBs] at h
  | k + 1, c :: rest, 0, p, h => by
    obtain rfl : _ = p := by simpa [toColumnPBs] using h
    simp
  | k + 1, c :: rest, i + 1, p, h => by
    have := isKey_toColumnPBs k rest i p (by simpa [toColumnPBs] using h)
    rw [this]
    omega

theorem checkContiguousKeys_error_of_key (pbs : List ColumnSchemaPB)
    (h : ∃ p ∈ pbs, p.isKey = true) :
    checkContiguousKeys true pbs = Except.error "Got out-of-order key column" := by
  induction pbs with
  | nil => simp at h
  | cons c rest ih =>
    obtain ⟨p, hp, hkey⟩ := h
    rcases List.mem_cons.mp hp with rfl | hmem
    · simp [checkContiguousKeys, hkey]
    · by_cases hc : c.isKey = true
      · simp [checkContiguousKeys, hc]
      · have hc' : c.isKey = false := by
          cases hcc : c.isKey
          · rfl
          · exact absurd hcc hc
        simp only [checkContiguousKeys, hc', Bool.false_and, Bool.not_false,
          Bool.true_or, Bool.false_eq_true, if_false]
        exact ih ⟨p, hmem, hkey⟩

theorem checkContiguousKeys_out_of_order :
    ∀ (b : Bool) (pbs : List ColumnSchemaPB) (i j : Nat) (x y : ColumnSchemaPB),
      i < j → pbs.get? i = some x → x.isKey = false →
      pbs.get? j = some y → y.isKey = true →
      checkContiguousKeys b pbs = Except.error "Got out-of-order key column"
  | _, [], i, _, x, _, _, hx, _, _, _ => by simp at hx
  | b, c :: rest, 0, j, x, y, hij, hx, hxk, hy, hyk => by
    obtain rfl : c = x := by simpa using hx
    match j, hij, hy with
    | j' + 1, _, hy =>
      simp only [checkContiguousKeys, hxk, Bool.false_and, Bool.not_false,
        Bool.or_true, Bool.false_eq_true, if_false]
      exact checkContiguousKeys_error_of_key rest
        ⟨y, List.get?_mem (by simpa using hy), hyk⟩
  | b, c :: rest, i + 1, j, x, y, hij, hx, hxk, hy, hyk => by
    match j, hij, hy with
    | j' + 1, hij, hy =>
      by_cases hcb : (c.isKey && b) = true
      · simp [checkContiguousKeys, hcb]
      · rw [checkContiguousKeys, if_neg hcb]
        exact checkContiguousKeys_out_of_order (b || !c.isKey) rest i j' x y
          (by omega) (by simpa using hx) hxk (by simpa using hy) hyk

/-- **C10** (Schema ↔ column-PB round trip).  A valid schema (distinct column
names, key count within range) converts to column PBs and back to an equal
schema; the converted PBs mark exactly the first `numKeyCols` entries as
keys; and `ColumnPBsToSchema` rejects a key column after a non-key column,
and rejects duplicate column names, returning an error instead of a schema. -/
theorem schema_pb_round_trip (s : Schema) (pbs : List ColumnSchemaPB) :
    ((s.cols.map (fun c => c.name)).Nodup → s.numKeyCols ≤ s.cols.length →
      ColumnPBsToSchema (SchemaToColumnPBs s) = Except.ok s)
    ∧ (∀ i p, (SchemaToColumnPBs s).get? i = some p →
        (p.isKey = true ↔ i < s.numKeyCols))
    ∧ ((∃ i j x y, i < j ∧ pbs.get? i = some x ∧ x.isKey = false
          ∧ pbs.get? j = some y ∧ y.isKey = true) →
        ColumnPBsToSchema pbs = Except.error "Got out-of-order key column")
    ∧ (checkContiguousKeys false pbs = Except.ok ()
        → ¬ (pbs.map (fun p => p.name)).Nodup →
        ColumnPBsToSchema pbs = Except.error "Duplicate name present") := by
  refine ⟨?_, ?_, ?_, ?_⟩
  · intro hnodup hk
    obtain ⟨cols, k⟩ := s
    simp only at hnodup hk
    have hnames : ((toColumnPBs k cols).map (fun p => p.name)).Nodup := by
      rw [names_toColumnPBs]
      exact hnodup
    simp only [SchemaToColumnPBs, ColumnPBsToSchema, checkContiguousKeys_toColumnPBs,
      if_pos hnames]
    rw [map_toColumnPBs, countLeadingKeys_toColumnPBs k cols hk]
  · intro i p hget
    exact isKey_toColumnPBs s.numKeyCols s.cols i p hget
  · rintro ⟨i, j, x, y, hij, hx, hxk, hy, hyk⟩
    have herr := checkContiguousKeys_out_of_order false pbs i j x y hij hx hxk hy hyk
    simp [ColumnPBsToSchema, herr]
  · intro hok hdup
    simp [ColumnPBsToSchema, hok, hdup]

/-! ### Concrete instantiations of the hypothesis-bearing theorems -/

/-- Flush at snapshot 5: a delete committed at 3 drops the row; an update
committed at 4 is applied while one at 7 is ignored; a delete at 9 leaves the
row untouched. -/
theorem flush_snapshot_visibility_witness :
    Flush [⟨⟨1, [10]⟩, [⟨3, MutationChange.delete⟩]⟩] (snapAt 5) = []
    ∧ Flush [⟨⟨2, [20]⟩, [⟨4, MutationChange.update 0 99⟩,
        ⟨7, MutationChange.update 0 111⟩]⟩] (snapAt 5) = [⟨2, [99]⟩]
    ∧ Flush [⟨⟨3, [30]⟩, [⟨9, MutationChange.delete⟩]⟩] (snapAt 5) = [⟨3, [30]⟩] := by
  refine ⟨?_, ?_, ?_⟩
  · exact (flush_snapshot_visibility (snapAt 5)
      ⟨⟨1, [10]⟩, [⟨3, MutationChange.delete⟩]⟩ []).1 (by decide)
  · exact (flush_snapshot_visibility (snapAt 5)
      ⟨⟨2, [20]⟩, [⟨4, MutationChange.update 0 99⟩, ⟨7, MutationChange.update 0 111⟩]⟩ []).2.1
      4 0 99 (by decide)
  · exact (flush_snapshot_visibility (snapAt 5)
      ⟨⟨3, [30]⟩, [⟨9, MutationChange.delete⟩]⟩ []).2.2.1 (by decide)

/-- Merge of two tagged sorted inputs with a duplicate key across inputs. -/
theorem merge_order_invariant_witness :
    List.Pairwise
      (fun a b => rowKey a.2 < rowKey b.2 ∨ (rowKey a.2 = rowKey b.2 ∧ a.1 ≤ b.1))
      (mergeAll (fun p => rowKey p.2)
        ([[(0, ⟨⟨1, []⟩, []⟩), (0, ⟨⟨3, []⟩, []⟩)],
          [(1, ⟨⟨1, []⟩, []⟩), (1, ⟨⟨2, []⟩, []⟩)]] :
            List (List (Nat × CompactionInputRow))))
    ∧ (mergeAll (fun p => rowKey p.2)
        ([[(0, ⟨⟨1, []⟩, []⟩), (0, ⟨⟨3, []⟩, []⟩)],
          [(1, ⟨⟨1, []⟩, []⟩), (1, ⟨⟨2, []⟩, []⟩)]] :
            List (List (Nat × CompactionInputRow)))).map Prod.snd
        = mergeAll rowKey
            (([[(0, ⟨⟨1, []⟩, []⟩), (0, ⟨⟨3, []⟩, []⟩)],
               [(1, ⟨⟨1, []⟩, []⟩), (1, ⟨⟨2, []⟩, []⟩)]] :
                List (List (Nat × CompactionInputRow))).map (List.map Prod.snd))
    ∧ List.Perm
        (mergeAll (fun p => rowKey p.2)
          ([[(0, ⟨⟨1, []⟩, []⟩), (0, ⟨⟨3, []⟩, []⟩)],
            [(1, ⟨⟨1, []⟩, []⟩), (1, ⟨⟨2, []⟩, []⟩)]] :
              List (List (Nat × CompactionInputRow))))
        ([[(0, ⟨⟨1, []⟩, []⟩), (0, ⟨⟨3, []⟩, []⟩)],
          [(1, ⟨⟨1, []⟩, []⟩), (1, ⟨⟨2, []⟩, []⟩)]] :
            List (List (Nat × CompactionInputRow))).flatten := by
  refine merge_order_invariant
    [[(0, ⟨⟨1, []⟩, []⟩), (0, ⟨⟨3, []⟩, []⟩)],
     [(1, ⟨⟨1, []⟩, []⟩), (1, ⟨⟨2, []⟩, []⟩)]] ?_ ?_
  · intro i l hget
    rcases i with _ | _ | i
    · simp only [List.get?_cons_zero, Option.some.injEq] at hget
      subst hget
      decide
    · simp only [List.get?_cons_succ, List.get?_cons_zero, Option.some.injEq] at hget
      subst hget
      decide
    · simp at hget
  · intro i l hget
    rcases i with _ | _ | i
    · simp only [List.get?_cons_zero, Option.some.injEq] at hget
      subst hget
      decide
    · simp only [List.get?_cons_succ, List.get?_cons_zero, Option.some.injEq] at hget
      subst hget
      decide
    · simp at hget

/-- Reupdate over the window (2, 5]: Flush applies the mutation at 1, the
reupdate replays the one at 4, the one at 9 stays out; together they are the
mutations visible at 5. -/
theorem reupdate_missed_deltas_complete_witness :
    List.Perm
      (flushAppliedMuts [⟨⟨1, [0]⟩, [⟨1, MutationChange.update 0 5⟩,
          ⟨4, MutationChange.update 0 6⟩, ⟨9, MutationChange.update 0 7⟩]⟩] (snapAt 2)
        ++ ReupdateMissedDeltas [⟨⟨1, [0]⟩, [⟨1, MutationChange.update 0 5⟩,
            ⟨4, MutationChange.update 0 6⟩, ⟨9, MutationChange.update 0 7⟩]⟩]
            (snapAt 2) (snapAt 5))
      (flushAppliedMuts [⟨⟨1, [0]⟩, [⟨1, MutationChange.update 0 5⟩,
          ⟨4, MutationChange.update 0 6⟩, ⟨9, MutationChange.update 0 7⟩]⟩] (snapAt 5)) := by
  refine (reupdate_missed_deltas_complete (snapAt 2) (snapAt 5) _ ?_).2.2
  intro t ht
  simp only [snapAt] at ht ⊢
  simp only [decide_eq_true_eq] at ht ⊢
  omega

/-- A row inserted at 2 is yielded under snapshot 5 with its chain intact,
including the not-yet-visible delete at 9. -/
theorem create_disk_input_spec_witness :
    (⟨⟨7, [1]⟩, [⟨9, MutationChange.delete⟩]⟩ : CompactionInputRow)
      ∈ createFromDiskRowSet ⟨[⟨2, ⟨7, [1]⟩, [⟨9, MutationChange.delete⟩]⟩]⟩ (snapAt 5) :=
  (create_disk_input_spec _ _ _).mpr
    ⟨⟨2, ⟨7, [1]⟩, [⟨9, MutationChange.delete⟩]⟩, by decide, by decide, rfl, rfl⟩

/-- Merge rejects a type-mismatched input schema and accepts matching ones. -/
theorem merge_schema_mismatch_rejection_witness :
    Merge [⟨⟨[⟨"col1", DataType.uint32, false⟩], 1⟩, []⟩]
        ⟨[⟨"col1", DataType.string, false⟩], 1⟩
      = Except.error "schema mismatch"
    ∧ Merge [⟨⟨[⟨"col1", DataType.string, false⟩], 1⟩, []⟩]
        ⟨[⟨"col1", DataType.string, false⟩], 1⟩
      = Except.ok ⟨⟨[⟨"col1", DataType.string, false⟩], 1⟩,
          mergeAll rowKey
            (([⟨⟨[⟨"col1", DataType.string, false⟩], 1⟩, []⟩] :
                List CompactionInputModel).map (fun i => i.rows))⟩ := by
  constructor
  · exact (merge_schema_mismatch_rejection
      [⟨⟨[⟨"col1", DataType.uint32, false⟩], 1⟩, []⟩]
      ⟨[⟨"col1", DataType.string, false⟩], 1⟩).1
      ⟨⟨⟨[⟨"col1", DataType.uint32, false⟩], 1⟩, []⟩, by decide, by decide⟩
  · exact (merge_schema_mismatch_rejection
      [⟨⟨[⟨"col1", DataType.string, false⟩], 1⟩, []⟩]
      ⟨[⟨"col1", DataType.string, false⟩], 1⟩).2 (by decide)

/-- An exhausted input with a stale prepared block yields nothing. -/
theorem prepare_block_after_exhausted_witness :
    HasMoreBlocks ⟨[], [⟨⟨1, [2]⟩, []⟩]⟩ = false
    ∧ (PrepareBlock ⟨[], [⟨⟨1, [2]⟩, []⟩]⟩).1 = []
    ∧ drainRows 3 ⟨[], [⟨⟨1, [2]⟩, []⟩]⟩ = [] := by
  refine ⟨by decide, ?_, ?_⟩
  · exact (prepare_block_after_exhausted _ (by decide)).1
  · exact (prepare_block_after_exhausted _ (by decide)).2.2 3

/-- A single added row set is returned directly; two row sets go through
Merge. -/
theorem create_compaction_input_spec_witness :
    CreateCompactionInput ⟨[⟨⟨[], 0⟩, [], none⟩], [⟨true⟩]⟩ (snapAt 5) ⟨[], 0⟩
      = RowSetModel.newCompactionInput ⟨⟨[], 0⟩, [], none⟩ (snapAt 5)
    ∧ CreateCompactionInput ⟨[⟨⟨[], 0⟩, [], none⟩, ⟨⟨[], 0⟩, [], none⟩], []⟩
        (snapAt 5) ⟨[], 0⟩
      = Merge [⟨⟨[], 0⟩, []⟩, ⟨⟨[], 0⟩, []⟩] ⟨[], 0⟩ := by
  constructor
  · exact (create_compaction_input_spec ⟨[], []⟩ (snapAt 5) ⟨[], 0⟩).1
      ⟨⟨[], 0⟩, [], none⟩ ⟨true⟩ _ rfl
  · exact ((create_compaction_input_spec ⟨[⟨⟨[], 0⟩, [], none⟩, ⟨⟨[], 0⟩, [], none⟩], []⟩
      (snapAt 5) ⟨[], 0⟩).2 (by decide)).2 [⟨⟨[], 0⟩, []⟩, ⟨⟨[], 0⟩, []⟩] rfl

/-- Adding a row set under an owned lock appends it and its lock. -/
theorem add_rowset_requires_lock_witness :
    AddRowSet ⟨[], []⟩ ⟨⟨[], 0⟩, [], none⟩ ⟨true⟩
      = some ⟨[⟨⟨[], 0⟩, [], none⟩], [⟨true⟩]⟩ :=
  (add_rowset_requires_lock ⟨[], []⟩ ⟨⟨[], 0⟩, [], none⟩ ⟨true⟩ rfl).1

/-- The test schema (one key column, "col3" nullable) round-trips; the two
malformed column-PB lists of the tests are rejected. -/
theorem schema_pb_round_trip_witness :
    ColumnPBsToSchema (SchemaToColumnPBs ⟨[⟨"col1", DataType.string, false⟩,
        ⟨"col2", DataType.string, false⟩, ⟨"col3", DataType.uint32, true⟩], 1⟩)
      = Except.ok ⟨[⟨"col1", DataType.string, false⟩, ⟨"col2", DataType.string, false⟩,
          ⟨"col3", DataType.uint32, true⟩], 1⟩
    ∧ ColumnPBsToSchema [⟨"c0", DataType.string, true, false⟩,
        ⟨"c1", DataType.string, false, false⟩, ⟨"c2", DataType.string, true, false⟩]
      = Except.error "Got out-of-order key column"
    ∧ ColumnPBsToSchema [⟨"c0", DataType.string, true, false⟩,
        ⟨"c1", DataType.string, false, false⟩, ⟨"c0", DataType.string, false, false⟩]
      = Except.error "Duplicate name present" := by
  refine ⟨?_, ?_, ?_⟩
  · exact (schema_pb_round_trip _ []).1 (by decide) (by decide)
  · exact (schema_pb_round_trip ⟨[], 0⟩ _).2.2.1
      ⟨1, 2, ⟨"c1", DataType.string, false, false⟩, ⟨"c2", DataType.string, true, false⟩,
        by decide, rfl, rfl, rfl, rfl⟩
  · exact (schema_pb_round_trip ⟨[], 0⟩ _).2.2.2 rfl (by decide)

end Kudu
